import Mathlib

/-!
Verification of the parking-log storage engine (hashtable of entry/exit
logs with merge-sort based reporting) against its specification.

The development shallowly embeds the C sources:
  * `timestamp.c` : timestamps and their comparison functions,
  * `log.c`       : log records, list merge and merge sort,
  * `hashtable.c` : the plate-keyed chained hash table, its djb2 hash,
                    prime-probing growth policy and insertion.

Modelling conventions:
  * C `unsigned int` arithmetic is `Nat` with an explicit `% 2^32`
    where overflow can occur (the djb2 accumulator).
  * C strings (plates, park names) are `List Nat` of their bytes
    (NUL-free, as in the program).
  * A `Log*` chain is a `List Log`; the NULL chain is `[]`.
  * `strcmp` is modelled with result values -1/0/1; only the sign of
    the C result is ever inspected by the program.
  * The unbounded C loops (trial division inside `isPrime`, the
    `while (1)` probe of `nearestPrime`, and the recursion of
    `mergeSort`) are embedded with an explicit descent counter; the
    accompanying lemmas show the counter is never exhausted in the
    ranges the theorems quantify over, keeping every definition
    kernel-computable.  The `unsigned int` wrap of the loop variables
    inside `isPrime` and `nearestPrime` is modelled with explicit
    `% 2^32`, since it is observable near the top of the 32-bit range.
-/

namespace ParkingVerif

/-! ### Timestamps (`timestamp.c`) -/

structure Timestamp where
  day : Int
  month : Int
  year : Int
  hour : Int
  minute : Int
deriving DecidableEq, Repr

/-- `INITIAL_TIMESTAMP` of `timestamp.h`: the sentinel "unset" value. -/
def INITIAL_TIMESTAMP : Timestamp := ⟨0, 0, 0, 0, 0⟩

/-- `compareDate` of `timestamp.c`: compare year, then month, then day. -/
def compareDate (t1 t2 : Timestamp) : Int :=
  if t1.year ≠ t2.year then (if t1.year < t2.year then -1 else 1)
  else if t1.month ≠ t2.month then (if t1.month < t2.month then -1 else 1)
  else if t1.day ≠ t2.day then (if t1.day < t2.day then -1 else 1)
  else 0

/-- `compareTimestamps` of `timestamp.c`: date first, then hour, minute. -/
def compareTimestamps (t1 t2 : Timestamp) : Int :=
  if compareDate t1 t2 ≠ 0 then compareDate t1 t2
  else if t1.hour ≠ t2.hour then (if t1.hour < t2.hour then -1 else 1)
  else if t1.minute ≠ t2.minute then (if t1.minute < t2.minute then -1 else 1)
  else 0

/-- `isInitialTimestamp` of `timestamp.c`. -/
def isInitialTimestamp (t : Timestamp) : Bool :=
  compareTimestamps t INITIAL_TIMESTAMP == 0

/-! ### Byte strings and `strcmp`

C's `strcmp` on NUL-terminated byte strings, with the result normalised
to -1/0/1 (the program only tests `< 0`, `== 0`, `> 0`). -/

def strcmp : List Nat → List Nat → Int
  | [], [] => 0
  | [], _ :: _ => -1
  | _ :: _, [] => 1
  | a :: as, b :: bs =>
      if a < b then -1 else if b < a then 1 else strcmp as bs

/-! ### Log records (`log.c`, `log.h`) -/

structure Log where
  plate : List Nat
  parkName : List Nat
  entryTimestamp : Timestamp
  exitTimestamp : Timestamp
deriving DecidableEq, Repr

/-- `newLog` of `log.c`: both timestamps start as the unset sentinel. -/
def newLog (plate : List Nat) (parkName : List Nat) : Log :=
  ⟨plate, parkName, INITIAL_TIMESTAMP, INITIAL_TIMESTAMP⟩

/-- The branch condition of `merge` in `log.c` (lines 262-278): `list1`'s
head is taken first iff its park name compares strictly below, or the
park names tie and the selected timestamp (entry for `'e'`, exit
otherwise) compares strictly below. -/
def condTake (sortBy : Char) (l1 l2 : Log) : Bool :=
  let parkNameCmp := strcmp l1.parkName l2.parkName
  let timestampComparison :=
    if sortBy = 'e' then
      compareTimestamps l1.entryTimestamp l2.entryTimestamp == -1
    else
      compareTimestamps l1.exitTimestamp l2.exitTimestamp == -1
  parkNameCmp < 0 || (parkNameCmp == 0 && timestampComparison)

/-- Inner loop of `merge` with the head `a :: l1` of the first chain
fixed; `mergeL1` is `merge sortBy l1`.  Splitting the two-list recursion
of the C `merge` in this way keeps both functions structurally
recursive. -/
def mergeAux (sortBy : Char) (a : Log) (l1 : List Log)
    (mergeL1 : List Log → List Log) : List Log → List Log
  | [] => a :: l1
  | b :: l2 =>
      if condTake sortBy a b then a :: mergeL1 (b :: l2)
      else b :: mergeAux sortBy a l1 mergeL1 l2

/-- `merge` of `log.c`. -/
def merge (sortBy : Char) : List Log → List Log → List Log
  | [], list2 => list2
  | a :: l1, list2 => mergeAux sortBy a l1 (merge sortBy l1) list2

theorem merge_nil (sortBy : Char) (l2 : List Log) :
    merge sortBy [] l2 = l2 := rfl

theorem merge_nil_right (sortBy : Char) (l1 : List Log) :
    merge sortBy l1 [] = l1 := by
  cases l1 <;> rfl

theorem merge_cons_cons (sortBy : Char) (a b : Log) (l1 l2 : List Log) :
    merge sortBy (a :: l1) (b :: l2) =
      if condTake sortBy a b then a :: merge sortBy l1 (b :: l2)
      else b :: merge sortBy (a :: l1) l2 := rfl

/-- `split` of `log.c`: the slow/fast pointer walk leaves the first
`⌈n/2⌉` nodes in the first half and the remaining `⌊n/2⌋` in the
second. -/
def split (l : List Log) : List Log × List Log :=
  (l.take ((l.length + 1) / 2), l.drop ((l.length + 1) / 2))

/-- `mergeSort` of `log.c`, with an explicit recursion-depth counter
`fuel`.  The source recursion terminates because `split` halves the
chain, so the depth is dominated by the chain's length; `mergeSort`
below passes `fuel = length of the chain`, which the halving argument
(see the length bounds inside `mergeSortF_fixpoint`) shows is never
exhausted. -/
def mergeSortF (sortBy : Char) : Nat → List Log → List Log
  | 0, l => l
  | fuel + 1, l =>
      if l.length ≤ 1 then l
      else
        merge sortBy (mergeSortF sortBy fuel (split l).1)
          (mergeSortF sortBy fuel (split l).2)

def mergeSort (sortBy : Char) (l : List Log) : List Log :=
  mergeSortF sortBy l.length l

/-! ### The hash table (`hashtable.c`, `hashtable.h`) -/

/-- `DJB2_CONSTANT` of `hashtable.c`. -/
def DJB2_CONSTANT : Nat := 5381

/-- `INITIAL_SIZE` of `hashtable.h`. -/
def INITIAL_SIZE : Nat := 53

/-- The djb2 accumulation loop of `plateHash`: `hash` is a C
`unsigned int`, so every step is reduced `% 2^32`; the separator
`'-'` (byte 45) is skipped. -/
def plateHashAux (hash : Nat) : List Nat → Nat
  | [] => hash
  | c :: cs =>
      if c ≠ 45 then plateHashAux ((hash * 33 + c) % 4294967296) cs
      else plateHashAux hash cs

/-- `plateHash` of `hashtable.c`: djb2 over the plate's bytes (hyphens
skipped), reduced modulo the table size. -/
def plateHash (plate : List Nat) (size : Nat) : Nat :=
  plateHashAux DJB2_CONSTANT plate % size

structure Hashtable where
  logs : List (List Log)
  size : Nat
  numElements : Nat
deriving DecidableEq, Repr

/-- `newHashtable` of `hashtable.c`: `INITIAL_SIZE` empty buckets. -/
def newHashtable : Hashtable :=
  ⟨List.replicate INITIAL_SIZE [], INITIAL_SIZE, 0⟩

/-- `getSize` of `hashtable.c`. -/
def getSize (ht : Hashtable) : Nat := ht.size

/-- `getLogAtIndex` of `hashtable.c`.  The C function takes a possibly
NULL table pointer (modelled by `Option Hashtable`) and returns a
`Log*` chain head; NULL — returned both for an invalid argument and for
an empty bucket — is the empty chain `[]`. -/
def getLogAtIndex (ht : Option Hashtable) (index : Nat) : List Log :=
  match ht with
  | none => []
  | some ht => if index ≥ ht.size then [] else ht.logs.getD index []

/-- The search predicate of `getPlateLastLogWithoutExit`: plate matches
and the exit timestamp is still the unset sentinel. -/
def isOpenFor (plate : List Nat) (l : Log) : Bool :=
  strcmp l.plate plate == 0 && isInitialTimestamp l.exitTimestamp

/-- `getPlateLastLogWithoutExit` of `hashtable.c`: scan the plate's
bucket chain and return the first log whose plate matches and whose
exit is unset («no exit means the exit timestamp is the
INITIAL_TIMESTAMP»). -/
def getPlateLastLogWithoutExit (ht : Hashtable) (plate : List Nat) :
    Option Log :=
  (getLogAtIndex (some ht) (plateHash plate (getSize ht))).find?
    (isOpenFor plate)

/-- The 6k±1 trial-division loop of `isPrime` (`hashtable.c` lines
158-160), with a descent counter.  `i` is a C `unsigned int`, so both
the square in the guard `i * i <= num` and the step `i += 6` wrap
modulo `2^32`; the wrap is observable for `num` close to `2^32`
(`isPrime_4294967291_false` below) and is part of the model.  For
`num < 65531² = 4294311961` the loop exits before any wrap can occur
and behaves exactly like unbounded arithmetic
(`isPrimeLoop_complete`). -/
def isPrimeLoop (num : Nat) : Nat → Nat → Bool
  | 0, _ => true
  | fuel + 1, i =>
      if i * i % 4294967296 ≤ num then
        if num % i = 0 || num % (i + 2) = 0 then false
        else isPrimeLoop num fuel ((i + 6) % 4294967296)
      else true

/-- `isPrime` of `hashtable.c`. -/
def isPrime (num : Nat) : Bool :=
  if num ≤ 1 then false
  else if num ≤ 3 then true
  else if num % 2 = 0 ∨ num % 3 = 0 then false
  else isPrimeLoop num num 5

/-- The `while (1)` probe of `nearestPrime` (`hashtable.c` lines
179-182), with a descent counter; `n` is a C `unsigned int`, so the
step `n += 2` wraps modulo `2^32` (observable near the top of the
range: `nearestPrime (2*2147483645 + 1)` wraps past `2^32` and returns
3, see the C8 analysis).  The counter is a modelling artifact of the C
infinite loop; on exhaustion the function returns 2, and no theorem
below leans on that default — each exhibits a prime hit within the
supplied counter (`primeScan_hits`). -/
def primeScan : Nat → Nat → Nat
  | 0, _ => 2
  | fuel + 1, n => if isPrime n then n else primeScan fuel ((n + 2) % 4294967296)

/-- `nearestPrime` of `hashtable.c`: `n ≤ 1` maps to 2; otherwise `n`
is forced odd (incremented if even) and the scan walks upward by 2
until `isPrime` succeeds. -/
def nearestPrime (n : Nat) : Nat :=
  if n ≤ 1 then 2
  else
    let m := if n % 2 = 0 then n + 1 else n
    primeScan (m + 2) m

/-- The body of the rehash loops of `resizeHashtable` (`hashtable.c`
lines 204-213): each log of a source chain, in chain order, is inserted
at the head of its new bucket. -/
def rehashChainStep (newSize : Nat) (newLogs : List (List Log))
    (log : Log) : List (List Log) :=
  let newIndex := plateHash log.plate newSize
  newLogs.set newIndex (log :: newLogs.getD newIndex [])

/-- `resizeHashtable` of `hashtable.c`: the new size is
`nearestPrime (2 * size + 1)`; every log is rehashed into fresh empty
buckets by head insertion, traversing the old buckets in index order
and each chain front to back. -/
def resizeHashtable (ht : Hashtable) : Hashtable :=
  let newSize := nearestPrime (ht.size * 2 + 1)
  let newLogs := ht.logs.foldl
    (fun acc chain => chain.foldl (rehashChainStep newSize) acc)
    (List.replicate newSize [])
  ⟨newLogs, newSize, ht.numElements⟩

/-- The append path test of `addLogToTable`: true iff the target bucket
already holds a chain (so the new log is appended at its end). -/
def appendPath (ht : Hashtable) (log : Log) : Bool :=
  !(ht.logs.getD (plateHash log.plate (getSize ht)) []).isEmpty

/-- `addLogToTable` of `hashtable.c`: bump the element count, then
either install the log as the head of an empty bucket (no growth check
on that path) or append it at the end of the existing chain and grow
when the load factor exceeds `LOAD_FACTOR_THRESHOLD = 0.75`.  The C
comparison `(double)numElements / size > 0.75` is exact for these
magnitudes and is modelled by `4 * numElements > 3 * size`. -/
def addLogToTable (ht : Hashtable) (log : Log) : Hashtable :=
  let n := ht.numElements + 1
  let index := plateHash log.plate (getSize ht)
  let bucket := ht.logs.getD index []
  if bucket.isEmpty then
    ⟨ht.logs.set index [log], ht.size, n⟩
  else
    let ht' : Hashtable := ⟨ht.logs.set index (bucket ++ [log]), ht.size, n⟩
    if 4 * n > 3 * getSize ht then resizeHashtable ht' else ht'

/-- A sequence of `addLogToTable` inserts into a fresh table. -/
def runInserts (logs : List Log) : Hashtable :=
  logs.foldl addLogToTable newHashtable

/-- All records reachable from the table's buckets. -/
def allRecords (ht : Hashtable) : List Log := ht.logs.flatten

/-- Structural well-formedness of a table: the bucket array has exactly
`size` entries, the size is positive, and every log reachable from
bucket `i` hashes to `i` under the current size. -/
def WF (ht : Hashtable) : Prop :=
  ht.logs.length = ht.size ∧ 0 < ht.size ∧
    ∀ i, i < ht.logs.length →
      ∀ l ∈ ht.logs.getD i [], plateHash l.plate ht.size = i

instance (ht : Hashtable) : Decidable (WF ht) := by
  unfold WF; infer_instance

/-! ### Correctness of the 6k±1 primality test

The loop variable wraps modulo `2^32` exactly as the C `unsigned int`
does.  Below `65531² = 4294311961` the loop provably exits before any
square can wrap, so the test agrees with mathematical primality there
(`isPrime_iff`); close to `2^32` the wrap makes the guard permanent and
the test misreports genuine primes (`isPrime_4294967291_false`). -/

/-- If the trial loop answered `true`, no probe value `i + 6*t` with its
square below `num` (nor its companion `i + 6*t + 2`) divides `num`.
Such probes are below `2^16`, so neither their squares nor the `i += 6`
steps leading to them wrap. -/
theorem isPrimeLoop_sound {num : Nat} (hnum : num < 4294967296) :
    ∀ fuel i t, isPrimeLoop num fuel i = true → t < fuel →
      (i + 6 * t) * (i + 6 * t) ≤ num →
      num % (i + 6 * t) ≠ 0 ∧ num % (i + 6 * t + 2) ≠ 0 := by
  intro fuel
  induction fuel with
  | zero => intro i t _ ht; omega
  | succ fuel ih =>
      intro i t hloop ht hsq
      rw [isPrimeLoop] at hloop
      by_cases hii : i * i % 4294967296 ≤ num
      · simp only [if_pos hii] at hloop
        by_cases hdvd : num % i = 0 || num % (i + 2) = 0
        · simp [hdvd] at hloop
        · simp only [hdvd, if_false] at hloop
          rcases Nat.eq_zero_or_pos t with ht0 | htpos
          · subst ht0
            simp only [Nat.mul_zero, Nat.add_zero]
            simpa using hdvd
          · have hjsmall : i + 6 * t < 65536 := by
              by_contra hbig
              push_neg at hbig
              have : 65536 * 65536 ≤ (i + 6 * t) * (i + 6 * t) :=
                Nat.mul_le_mul hbig hbig
              omega
            have hstep : (i + 6) % 4294967296 = i + 6 :=
              Nat.mod_eq_of_lt (by omega)
            rw [hstep] at hloop
            have hrec := ih (i + 6) (t - 1) hloop (by omega)
              (by have : i + 6 + 6 * (t - 1) = i + 6 * t := by omega
                  rw [this]; exact hsq)
            have harg : i + 6 + 6 * (t - 1) = i + 6 * t := by omega
            rw [harg] at hrec
            exact hrec
      · simp only [if_neg hii] at hloop
        exfalso
        have hle : i * i ≤ (i + 6 * t) * (i + 6 * t) :=
          Nat.mul_le_mul (by omega) (by omega)
        have hid : i * i % 4294967296 = i * i := Nat.mod_eq_of_lt (by omega)
        omega

/-- If `num` is prime and stays below `65531²`, the trial loop can never
find a divisor, whatever the descent counter: the probes all satisfy
`i ≤ 65531`, so their squares never wrap and every probe with
`i * i ≤ num` is a proper nontrivial candidate. -/
theorem isPrimeLoop_complete {num : Nat} (hp : Nat.Prime num)
    (hnum : num < 4294311961) :
    ∀ fuel i, 5 ≤ i → i % 6 = 5 → i ≤ 65531 →
      isPrimeLoop num fuel i = true := by
  intro fuel
  induction fuel with
  | zero => intro i _ _ _; rfl
  | succ fuel ih =>
      intro i hi hi6 hile
      rw [isPrimeLoop]
      have hsqlt : i * i < 4294967296 := by
        have : i * i ≤ 65531 * 65531 := Nat.mul_le_mul hile hile
        omega
      rw [Nat.mod_eq_of_lt hsqlt]
      by_cases hii : i * i ≤ num
      · have h2 : num % i ≠ 0 := by
          intro h
          have hdvd : i ∣ num := (Nat.dvd_iff_mod_eq_zero).mpr h
          rcases (Nat.Prime.eq_one_or_self_of_dvd hp i hdvd) with h1 | hself
          · omega
          · subst hself
            have : 5 * i ≤ i * i := Nat.mul_le_mul_right i hi
            omega
        have h3 : num % (i + 2) ≠ 0 := by
          intro h
          have hdvd : (i + 2) ∣ num := (Nat.dvd_iff_mod_eq_zero).mpr h
          rcases (Nat.Prime.eq_one_or_self_of_dvd hp (i + 2) hdvd) with h1 | hself
          · omega
          · have : 5 * i ≤ i * i := Nat.mul_le_mul_right i hi
            omega
        have hilt : i < 65531 := by
          by_contra hbig
          push_neg at hbig
          have : 65531 * 65531 ≤ i * i := Nat.mul_le_mul hbig hbig
          omega
        have hstep : (i + 6) % 4294967296 = i + 6 :=
          Nat.mod_eq_of_lt (by omega)
        simp only [if_pos hii, h2, h3, hstep]
        simpa using ih (i + 6) (by omega) (by omega) (by omega)
      · simp [hii]

/-- Below `65531²` — far beyond every table size this program reaches —
`isPrime` of the source agrees with mathematical primality. -/
theorem isPrime_iff (num : Nat) (hnum : num < 4294311961) :
    isPrime num = true ↔ Nat.Prime num := by
  constructor
  · intro h
    rw [isPrime] at h
    by_cases h1 : num ≤ 1
    · simp [h1] at h
    · by_cases h3 : num ≤ 3
      · have : num = 2 ∨ num = 3 := by omega
        rcases this with h' | h' <;> subst h' <;> norm_num
      · by_cases h23 : num % 2 = 0 ∨ num % 3 = 0
        · simp [h1, h3, h23] at h
        · simp only [if_neg h1, if_neg h3, if_neg h23] at h
          push_neg at h23
          -- `num ≥ 5`, not divisible by 2 or 3, and the loop found no
          -- divisor of the form 6k±1 below √num: `num` is prime.
          by_contra hnp
          have hpos : 0 < num := by omega
          have hsq := Nat.minFac_sq_le_self hpos hnp
          set p := Nat.minFac num with hpdef
          have hpprime : Nat.Prime p := Nat.minFac_prime (by omega)
          have hpdvd : p ∣ num := Nat.minFac_dvd num
          have hpmod : num % p = 0 := (Nat.dvd_iff_mod_eq_zero).mp hpdvd
          have hp2 : p ≠ 2 := by
            intro h2; rw [h2] at hpdvd
            rcases hpdvd with ⟨k, hk⟩; omega
          have hp3 : p ≠ 3 := by
            intro h3'; rw [h3'] at hpdvd
            rcases hpdvd with ⟨k, hk⟩; omega
          have hptwo : 2 ≤ p := hpprime.two_le
          have hp4 : p ≠ 4 := by
            intro h4; rw [h4] at hpprime; norm_num at hpprime
          have hp5 : 5 ≤ p := by omega
          have hpodd : p % 2 = 1 := by
            rcases Nat.even_or_odd p with he | ho
            · exact absurd ((Nat.Prime.even_iff hpprime).mp he) hp2
            · exact Nat.odd_iff.mp ho
          have hpm3 : p % 3 ≠ 0 := by
            intro hdd
            have h3d : (3 : Nat) ∣ p := (Nat.dvd_iff_mod_eq_zero).mpr hdd
            rcases (Nat.Prime.eq_one_or_self_of_dvd hpprime 3 h3d) with h1' | h3' <;> omega
          have hple : p ≤ num := Nat.le_of_dvd (by omega) hpdvd
          have hsq' : p * p ≤ num := by
            have hpow : p ^ 2 = p * p := by ring
            omega
          have hp6 : p % 6 = 1 ∨ p % 6 = 5 := by omega
          rcases hp6 with h6one | h6five
          · -- probe step `t = (p-7)/6` tests `5 + 6t + 2 = p`
            have hres := isPrimeLoop_sound (by omega) num 5 ((p - 7) / 6) h
              (by omega)
              (by
                have hle : 5 + 6 * ((p - 7) / 6) ≤ p := by omega
                calc (5 + 6 * ((p - 7) / 6)) * (5 + 6 * ((p - 7) / 6))
                    ≤ p * p := Nat.mul_le_mul hle hle
                  _ ≤ num := hsq')
            have harg : 5 + 6 * ((p - 7) / 6) + 2 = p := by omega
            rw [harg] at hres
            exact hres.2 hpmod
          · -- probe step `t = (p-5)/6` tests `5 + 6t = p` itself
            have hres := isPrimeLoop_sound (by omega) num 5 ((p - 5) / 6) h
              (by omega)
              (by
                have harg : 5 + 6 * ((p - 5) / 6) = p := by omega
                rw [harg]; exact hsq')
            have harg : 5 + 6 * ((p - 5) / 6) = p := by omega
            rw [harg] at hres
            exact hres.1 hpmod
  · intro hp
    rw [isPrime]
    have h2 := hp.two_le
    by_cases h1 : num ≤ 1
    · omega
    · by_cases h3 : num ≤ 3
      · simp [h1, h3]
      · have hm2 : num % 2 ≠ 0 := by
          intro hdd
          have hd : (2 : Nat) ∣ num := (Nat.dvd_iff_mod_eq_zero).mpr hdd
          rcases (Nat.Prime.eq_one_or_self_of_dvd hp 2 hd) with h' | h' <;> omega
        have hm3 : num % 3 ≠ 0 := by
          intro hdd
          have hd : (3 : Nat) ∣ num := (Nat.dvd_iff_mod_eq_zero).mpr hdd
          rcases (Nat.Prime.eq_one_or_self_of_dvd hp 3 hd) with h' | h' <;> omega
        simp only [if_neg h1, if_neg h3, if_neg (show ¬(num % 2 = 0 ∨ num % 3 = 0) by omega)]
        exact isPrimeLoop_complete hp hnum num 5 (by omega) (by omega) (by omega)

/-! ### The `nearestPrime` probe within the wrap-free range -/

/-- If some step `k` below the counter hits a prime before the `+2`
walk can wrap, the scan stops at the first such step. -/
theorem primeScan_hits :
    ∀ fuel n k, k < fuel → n + 2 * k < 4294967296 →
      isPrime (n + 2 * k) = true →
      ∃ j, j ≤ k ∧ primeScan fuel n = n + 2 * j ∧
        isPrime (n + 2 * j) = true := by
  intro fuel
  induction fuel with
  | zero => intro n k hk; omega
  | succ fuel ih =>
      intro n k hk hlt hkprime
      rw [primeScan]
      by_cases hn : isPrime n = true
      · exact ⟨0, by omega, by simp [hn], by simpa using hn⟩
      · simp only [hn, if_false, Bool.false_eq_true]
        have hk0 : k ≠ 0 := by
          intro h0; subst h0; simp at hkprime; exact hn hkprime
        have hstep : (n + 2) % 4294967296 = n + 2 :=
          Nat.mod_eq_of_lt (by omega)
        rw [hstep]
        have harg : n + 2 + 2 * (k - 1) = n + 2 * k := by omega
        obtain ⟨j, hj, hscan, hjprime⟩ :=
          ih (n + 2) (k - 1) (by omega) (by omega)
            (by rw [harg]; exact hkprime)
        exact ⟨j + 1, by omega, by rw [hscan]; ring_nf, by
          have hsh : n + 2 + 2 * j = n + 2 * (j + 1) := by ring
          rw [hsh] at hjprime; exact hjprime⟩

/-- Bertrand's postulate, specialised: from an odd `m ≥ 3` that is not
too close to the 32-bit wrap, an odd prime at most `2m` (inside the
wrap-free regime of `isPrime`) is reached in fewer than `m + 2` steps
of `+2`. -/
theorem exists_prime_step (m : Nat) (hm : 3 ≤ m) (hodd : m % 2 = 1)
    (hbound : m ≤ 2147155980) :
    ∃ k, k < m + 2 ∧ m + 2 * k ≤ 2 * m ∧ isPrime (m + 2 * k) = true := by
  obtain ⟨p, hp, hlt, hle⟩ := Nat.exists_prime_lt_and_le_two_mul m (by omega)
  have hp5 : 4 ≤ p := by omega
  have hpodd : p % 2 = 1 := by
    rcases Nat.even_or_odd p with he | ho
    · exfalso
      have := (Nat.Prime.even_iff hp).mp he
      omega
    · exact Nat.odd_iff.mp ho
  refine ⟨(p - m) / 2, by omega, by omega, ?_⟩
  have harg : m + 2 * ((p - m) / 2) = p := by omega
  rw [harg]
  exact (isPrime_iff p (by omega)).mpr hp

/-- For arguments up to `2147155979` — far beyond every table size this
program reaches — `nearestPrime` returns a prime at least as large as
its argument, and in particular the C probe halts within the modelled
counter. -/
theorem nearestPrime_spec (n : Nat) (hn : n ≤ 2147155979) :
    Nat.Prime (nearestPrime n) ∧ n ≤ nearestPrime n := by
  rw [nearestPrime]
  by_cases h1 : n ≤ 1
  · simp only [if_pos h1]
    exact ⟨by norm_num, by omega⟩
  · simp only [if_neg h1]
    set m := if n % 2 = 0 then n + 1 else n with hm
    have hm3 : 3 ≤ m := by
      rw [hm]; split <;> omega
    have hmodd : m % 2 = 1 := by
      rw [hm]; split <;> omega
    have hmn : n ≤ m := by
      rw [hm]; split <;> omega
    have hmb : m ≤ 2147155980 := by
      rw [hm]; split <;> omega
    obtain ⟨k, hk, hkle, hkprime⟩ := exists_prime_step m hm3 hmodd hmb
    obtain ⟨j, hj, hscan, hjprime⟩ :=
      primeScan_hits (m + 2) m k hk (by omega) hkprime
    rw [hscan]
    exact ⟨(isPrime_iff _ (by omega)).mp hjprime, by omega⟩

/-- `isPrime` only accepts values at least 2. -/
theorem isPrime_true_two_le {x : Nat} (h : isPrime x = true) : 2 ≤ x := by
  by_contra hlt
  push_neg at hlt
  rw [isPrime, if_pos (by omega : x ≤ 1)] at h
  cases h

/-- The scan's results — genuine hits and the exhaustion default
alike — are at least 2, so the table sizes built from them are
positive whatever the argument. -/
theorem primeScan_two_le : ∀ fuel n, 2 ≤ primeScan fuel n := by
  intro fuel
  induction fuel with
  | zero => intro n; norm_num [primeScan]
  | succ fuel ih =>
      intro n
      rw [primeScan]
      by_cases hn : isPrime n = true
      · rw [if_pos hn]; exact isPrime_true_two_le hn
      · rw [if_neg hn]; exact ih _

/-- The table sizes produced by `nearestPrime` are positive. -/
theorem nearestPrime_pos (n : Nat) : 0 < nearestPrime n := by
  rw [nearestPrime]
  by_cases h1 : n ≤ 1
  · simp [h1]
  · rw [if_neg h1]
    show 0 < primeScan ((if n % 2 = 0 then n + 1 else n) + 2)
      (if n % 2 = 0 then n + 1 else n)
    have := primeScan_two_le ((if n % 2 = 0 then n + 1 else n) + 2)
      (if n % 2 = 0 then n + 1 else n)
    omega

/-! ### Bucket-array and rehash lemmas -/

theorem plateHash_lt (plate : List Nat) {size : Nat} (h : 0 < size) :
    plateHash plate size < size := Nat.mod_lt _ h

theorem getD_set_self {l : List (List Log)} {i : Nat} (x : List Log)
    (h : i < l.length) : (l.set i x).getD i [] = x := by
  rw [List.getD_eq_getElem?_getD, List.getElem?_set_self h]
  rfl

theorem getD_set_ne {l : List (List Log)} {i j : Nat} (x : List Log)
    (h : i ≠ j) : (l.set i x).getD j [] = l.getD j [] := by
  rw [List.getD_eq_getElem?_getD, List.getElem?_set_ne h,
    ← List.getD_eq_getElem?_getD]

theorem getD_replicate_nil (ns j : Nat) :
    (List.replicate ns ([] : List Log)).getD j [] = [] := by
  rw [List.getD_eq_getElem?_getD, List.getElem?_replicate]
  split <;> rfl

theorem rehashChainStep_length (ns : Nat) (acc : List (List Log)) (log : Log) :
    (rehashChainStep ns acc log).length = acc.length := by
  simp [rehashChainStep]

theorem rehashChainStep_getD (ns : Nat) (acc : List (List Log)) (log : Log)
    (j : Nat) (hlen : acc.length = ns) (hns : 0 < ns) :
    (rehashChainStep ns acc log).getD j [] =
      if plateHash log.plate ns = j then log :: acc.getD j []
      else acc.getD j [] := by
  unfold rehashChainStep
  have hidx : plateHash log.plate ns < acc.length := by
    rw [hlen]; exact plateHash_lt _ hns
  by_cases hj : plateHash log.plate ns = j
  · rw [if_pos hj, ← hj, getD_set_self _ hidx]
  · rw [if_neg hj, getD_set_ne _ hj]

theorem rehashChain_length (ns : Nat) (chain : List Log) :
    ∀ acc : List (List Log),
      (chain.foldl (rehashChainStep ns) acc).length = acc.length := by
  induction chain with
  | nil => intro acc; rfl
  | cons r chain ih =>
      intro acc
      simp only [List.foldl_cons]
      rw [ih, rehashChainStep_length]

/-- Folding one source chain into the new bucket array prepends, bucket
by bucket, the reversed chain restricted to that bucket: head insertion
reverses each source chain. -/
theorem rehashChain_getD (ns : Nat) (chain : List Log) :
    ∀ (acc : List (List Log)) (j : Nat), acc.length = ns → 0 < ns →
      (chain.foldl (rehashChainStep ns) acc).getD j [] =
        (chain.filter (fun r => plateHash r.plate ns == j)).reverse ++
          acc.getD j [] := by
  induction chain with
  | nil => intro acc j _ _; simp
  | cons r chain ih =>
      intro acc j hlen hns
      simp only [List.foldl_cons]
      rw [ih (rehashChainStep ns acc r) j
        (by rw [rehashChainStep_length]; exact hlen) hns]
      rw [rehashChainStep_getD ns acc r j hlen hns]
      by_cases hj : plateHash r.plate ns = j
      · simp [List.filter_cons, hj]
      · simp [List.filter_cons, hj]

theorem rehashAll_length (ns : Nat) (chains : List (List Log)) :
    ∀ acc : List (List Log),
      (chains.foldl (fun acc chain => chain.foldl (rehashChainStep ns) acc)
        acc).length = acc.length := by
  induction chains with
  | nil => intro acc; rfl
  | cons c cs ih =>
      intro acc
      simp only [List.foldl_cons]
      rw [ih, rehashChain_length]

/-- Folding all source buckets (in index order, each chain front to
back) fills destination bucket `j` with exactly the records that hash
to `j`, in reversed traversal order. -/
theorem rehashAll_getD (ns : Nat) (chains : List (List Log)) :
    ∀ (acc : List (List Log)) (j : Nat), acc.length = ns → 0 < ns →
      (chains.foldl (fun acc chain => chain.foldl (rehashChainStep ns) acc)
          acc).getD j [] =
        (chains.flatten.filter (fun r => plateHash r.plate ns == j)).reverse ++
          acc.getD j [] := by
  induction chains with
  | nil => intro acc j _ _; simp
  | cons c cs ih =>
      intro acc j hlen hns
      simp only [List.foldl_cons]
      rw [ih (c.foldl (rehashChainStep ns) acc) j
        (by rw [rehashChain_length]; exact hlen) hns]
      rw [rehashChain_getD ns c acc j hlen hns]
      simp [List.filter_append, List.reverse_append, List.append_assoc]

/-- The destination buckets of `resizeHashtable`, characterised: bucket
`j` of the resized table holds exactly the stored records hashing to
`j` under the new size, in reverse traversal order. -/
theorem resize_logs_getD (ht : Hashtable) (j : Nat) :
    (resizeHashtable ht).logs.getD j [] =
      ((allRecords ht).filter
        (fun r => plateHash r.plate (nearestPrime (ht.size * 2 + 1)) == j)).reverse := by
  show ((ht.logs.foldl _ (List.replicate (nearestPrime (ht.size * 2 + 1)) [])).getD j []) = _
  rw [rehashAll_getD _ _ _ j (List.length_replicate _ _) (nearestPrime_pos _),
    getD_replicate_nil]
  simp [allRecords]

theorem resize_size (ht : Hashtable) :
    (resizeHashtable ht).size = nearestPrime (ht.size * 2 + 1) := rfl

theorem resize_numElements (ht : Hashtable) :
    (resizeHashtable ht).numElements = ht.numElements := rfl

theorem resize_logs_length (ht : Hashtable) :
    (resizeHashtable ht).logs.length = nearestPrime (ht.size * 2 + 1) := by
  show (ht.logs.foldl _ (List.replicate (nearestPrime (ht.size * 2 + 1)) [])).length = _
  rw [rehashAll_length, List.length_replicate]

/-! ### Multiset preservation of the rehash -/

theorem flatten_set_perm (l : List (List Log)) (i : Nat) (x : Log)
    (h : i < l.length) :
    (l.set i (x :: l.getD i [])).flatten.Perm (x :: l.flatten) := by
  rw [List.getD_eq_getElem (l := l) (d := []) h]
  rw [List.set_eq_take_cons_drop _ h]
  conv_rhs => rw [← List.take_append_drop i l, List.drop_eq_getElem_cons h]
  simp only [List.flatten_append, List.flatten_cons]
  exact List.perm_middle

theorem rehashChainStep_flatten_perm (ns : Nat) (acc : List (List Log))
    (log : Log) (hlen : acc.length = ns) (hns : 0 < ns) :
    (rehashChainStep ns acc log).flatten.Perm (log :: acc.flatten) := by
  unfold rehashChainStep
  exact flatten_set_perm acc _ log (by rw [hlen]; exact plateHash_lt _ hns)

theorem rehashChain_flatten_perm (ns : Nat) (chain : List Log) :
    ∀ acc : List (List Log), acc.length = ns → 0 < ns →
      (chain.foldl (rehashChainStep ns) acc).flatten.Perm
        (chain ++ acc.flatten) := by
  induction chain with
  | nil => intro acc _ _; simp
  | cons r chain ih =>
      intro acc hlen hns
      simp only [List.foldl_cons]
      have h1 := ih (rehashChainStep ns acc r)
        (by rw [rehashChainStep_length]; exact hlen) hns
      have h2 : (chain ++ (rehashChainStep ns acc r).flatten).Perm
          (chain ++ (r :: acc.flatten)) :=
        List.Perm.append_left chain
          (rehashChainStep_flatten_perm ns acc r hlen hns)
      have h3 : (chain ++ (r :: acc.flatten)).Perm (r :: (chain ++ acc.flatten)) :=
        List.perm_middle
      exact (h1.trans h2).trans h3

theorem rehashAll_flatten_perm (ns : Nat) (chains : List (List Log)) :
    ∀ acc : List (List Log), acc.length = ns → 0 < ns →
      (chains.foldl (fun acc chain => chain.foldl (rehashChainStep ns) acc)
        acc).flatten.Perm (chains.flatten ++ acc.flatten) := by
  induction chains with
  | nil => intro acc _ _; simp
  | cons c cs ih =>
      intro acc hlen hns
      simp only [List.foldl_cons, List.flatten_cons]
      have h1 := ih (c.foldl (rehashChainStep ns) acc)
        (by rw [rehashChain_length]; exact hlen) hns
      have h2 : (cs.flatten ++ (c.foldl (rehashChainStep ns) acc).flatten).Perm
          (cs.flatten ++ (c ++ acc.flatten)) :=
        List.Perm.append_left _ (rehashChain_flatten_perm ns c acc hlen hns)
      have h3 : (cs.flatten ++ (c ++ acc.flatten)).Perm
          ((c ++ cs.flatten) ++ acc.flatten) := by
        rw [← List.append_assoc]
        exact List.Perm.append_right _ List.perm_append_comm
      exact (h1.trans h2).trans h3

/-- Growth moves records, never drops or duplicates them: the stored
records of the resized table are a permutation of the original ones. -/
theorem resize_allRecords_perm (ht : Hashtable) :
    (allRecords (resizeHashtable ht)).Perm (allRecords ht) := by
  show ((ht.logs.foldl _ (List.replicate (nearestPrime (ht.size * 2 + 1)) [])).flatten).Perm _
  have h1 := rehashAll_flatten_perm (nearestPrime (ht.size * 2 + 1)) ht.logs
    (List.replicate (nearestPrime (ht.size * 2 + 1)) [])
    (List.length_replicate _ _) (nearestPrime_pos _)
  simpa [allRecords] using h1

/-! ### Well-formedness preservation -/

theorem WF_resize (ht : Hashtable) : WF (resizeHashtable ht) := by
  refine ⟨by rw [resize_logs_length, resize_size], ?_, ?_⟩
  · rw [resize_size]; exact nearestPrime_pos _
  · intro i hi l hl
    rw [resize_logs_getD] at hl
    rw [List.mem_reverse, List.mem_filter] at hl
    have h2 := hl.2
    rw [resize_size]
    simp only [beq_iff_eq] at h2
    exact h2

theorem WF_addLogToTable (ht : Hashtable) (log : Log) (h : WF ht) :
    WF (addLogToTable ht log) := by
  obtain ⟨hlen, hpos, hinv⟩ := h
  unfold addLogToTable
  have hidx : plateHash log.plate (getSize ht) < ht.logs.length := by
    rw [hlen]; exact plateHash_lt _ hpos
  by_cases hb : (ht.logs.getD (plateHash log.plate (getSize ht)) []).isEmpty
  · simp only [if_pos hb]
    refine ⟨by simpa using hlen, hpos, ?_⟩
    intro i hi l hl
    rw [List.length_set] at hi
    by_cases hij : plateHash log.plate (getSize ht) = i
    · rw [← hij, getD_set_self _ hidx] at hl
      simp only [List.mem_singleton] at hl
      subst hl; exact hij
    · rw [getD_set_ne _ hij] at hl
      exact hinv i hi l hl
  · simp only [if_neg hb]
    by_cases hgrow : 4 * (ht.numElements + 1) > 3 * getSize ht
    · simp only [if_pos hgrow]
      exact WF_resize _
    · simp only [if_neg hgrow]
      refine ⟨by simpa using hlen, hpos, ?_⟩
      intro i hi l hl
      rw [List.length_set] at hi
      by_cases hij : plateHash log.plate (getSize ht) = i
      · rw [← hij, getD_set_self _ hidx] at hl
        rw [List.mem_append] at hl
        rcases hl with hl | hl
        · rw [← hij]
          exact hinv _ hidx l hl
        · simp only [List.mem_singleton] at hl
          subst hl; exact hij
      · rw [getD_set_ne _ hij] at hl
        exact hinv i hi l hl

theorem WF_newHashtable : WF newHashtable := by decide

theorem WF_runInserts (logs : List Log) : WF (runInserts logs) := by
  have main : ∀ (ls : List Log) (ht : Hashtable), WF ht →
      WF (ls.foldl addLogToTable ht) := by
    intro ls
    induction ls with
    | nil => intro ht h; exact h
    | cons l ls ih =>
        intro ht h
        exact ih _ (WF_addLogToTable ht l h)
  exact main logs newHashtable WF_newHashtable

/-! ### Merge and merge sort on already-ordered chains -/

/-- When every record of `xs` strictly precedes (in the implemented
order) every record of `ys`, `merge` degenerates to concatenation. -/
theorem merge_append_of_cross (c : Char) :
    ∀ xs ys : List Log, (∀ a ∈ xs, ∀ b ∈ ys, condTake c a b = true) →
      merge c xs ys = xs ++ ys := by
  intro xs
  induction xs with
  | nil => intro ys _; rw [merge_nil]; rfl
  | cons a xs ih =>
      intro ys hcross
      cases ys with
      | nil => rw [merge_nil_right]; simp
      | cons b ys =>
          rw [merge_cons_cons,
            if_pos (hcross a (List.mem_cons_self a xs) b (List.mem_cons_self b ys))]
          rw [ih (b :: ys) (fun a' ha' b' hb' =>
            hcross a' (List.mem_cons_of_mem a ha') b' hb')]
          rfl

/-- A chain that is already strictly ordered under the implemented
comparison is a fixed point of the merge sort, whatever the recursion
counter dominating its depth. -/
theorem mergeSortF_fixpoint (c : Char) :
    ∀ (fuel : Nat) (l : List Log), l.length ≤ fuel + 1 →
      l.Pairwise (fun a b => condTake c a b = true) →
      mergeSortF c fuel l = l := by
  intro fuel
  induction fuel with
  | zero =>
      intro l hlen _
      rfl
  | succ fuel ih =>
      intro l hlen hpair
      rw [mergeSortF]
      by_cases h1 : l.length ≤ 1
      · rw [if_pos h1]
      · rw [if_neg h1]
        have hk : (split l).1 = l.take ((l.length + 1) / 2) := rfl
        have hk' : (split l).2 = l.drop ((l.length + 1) / 2) := rfl
        have hlen1 : (l.take ((l.length + 1) / 2)).length ≤ fuel + 1 := by
          rw [List.length_take]; omega
        have hlen2 : (l.drop ((l.length + 1) / 2)).length ≤ fuel + 1 := by
          rw [List.length_drop]; omega
        have hpair' := hpair
        rw [← List.take_append_drop ((l.length + 1) / 2) l] at hpair'
        obtain ⟨hp1, hp2, hcross⟩ := List.pairwise_append.mp hpair'
        rw [hk, hk', ih _ hlen1 hp1, ih _ hlen2 hp2,
          merge_append_of_cross c _ _ hcross]
        exact List.take_append_drop _ l

/-! ### `strcmp` and the open-record search -/

theorem strcmp_eq_zero_iff : ∀ a b : List Nat, strcmp a b = 0 ↔ a = b := by
  intro a
  induction a with
  | nil => intro b; cases b <;> simp [strcmp]
  | cons x xs ih =>
      intro b
      cases b with
      | nil => simp [strcmp]
      | cons y ys =>
          rw [strcmp]
          by_cases h1 : x < y
          · rw [if_pos h1]
            constructor
            · intro h; exact absurd h (by norm_num)
            · intro h; injection h with h' _; omega
          · by_cases h2 : y < x
            · rw [if_neg h1, if_pos h2]
              constructor
              · intro h; exact absurd h (by norm_num)
              · intro h; injection h with h' _; omega
            · rw [if_neg h1, if_neg h2]
              have hxy : x = y := by omega
              subst hxy
              rw [ih ys]
              constructor
              · intro h; rw [h]
              · intro h; injection h with _ h'

theorem isOpenFor_iff (p : List Nat) (l : Log) :
    isOpenFor p l = true ↔
      l.plate = p ∧ isInitialTimestamp l.exitTimestamp = true := by
  rw [isOpenFor, Bool.and_eq_true, beq_iff_eq, strcmp_eq_zero_iff]

/-- A predicate counted at most once over a list identifies its
satisfying members uniquely. -/
theorem countP_le_one_eq {l : List Log} {p : Log → Bool}
    (h : l.countP p ≤ 1) {a b : Log} (ha : a ∈ l) (hb : b ∈ l)
    (hpa : p a = true) (hpb : p b = true) : a = b := by
  have ha' : a ∈ l.filter p := List.mem_filter.mpr ⟨ha, hpa⟩
  have hb' : b ∈ l.filter p := List.mem_filter.mpr ⟨hb, hpb⟩
  rw [List.countP_eq_length_filter] at h
  rcases hfl : l.filter p with _ | ⟨x, _ | ⟨y, tl⟩⟩
  · rw [hfl] at ha'; simp at ha'
  · rw [hfl] at ha' hb'
    simp only [List.mem_singleton] at ha' hb'
    rw [ha', hb']
  · rw [hfl] at h; simp at h

/-- A record of a bucket is among the table's stored records. -/
theorem mem_bucket_allRecords (ht : Hashtable) (i : Nat)
    (hi : i < ht.logs.length) (r : Log) (hr : r ∈ ht.logs.getD i []) :
    r ∈ allRecords ht := by
  rw [List.getD_eq_getElem (l := ht.logs) (d := []) hi] at hr
  exact List.mem_flatten.mpr ⟨ht.logs[i], List.getElem_mem hi, hr⟩


/-! ### Concrete runs used by the claim analyses

All plates below are valid `XX-XX-XX` licence plates of the program
(byte lists; 45 is the hyphen). -/

/-- The plate "AA-00-AA"; its djb2 hash is 2754721129, so its bucket is
19 of 53, 30 of 107 and 122 of 223. -/
def plateAA : List Nat := [65, 65, 45, 48, 48, 45, 65, 65]

/-- 52 valid plates ("AA-00-AB" … style) whose buckets modulo 53 are
pairwise distinct and all different from bucket 19 of `plateAA`. -/
def headPlates : List (List Nat) := [
  [65,65,45,48,48,45,66,66], [65,65,45,48,48,45,66,67], [65,65,45,48,48,45,66,68], [65,65,45,48,48,45,66,69],
  [65,65,45,48,48,45,66,70], [65,65,45,48,48,45,66,71], [65,65,45,48,48,45,66,72], [65,65,45,48,48,45,66,73],
  [65,65,45,48,48,45,66,74], [65,65,45,48,48,45,66,75], [65,65,45,48,48,45,66,76], [65,65,45,48,48,45,66,77],
  [65,65,45,48,48,45,66,78], [65,65,45,48,48,45,66,79], [65,65,45,48,48,45,66,80], [65,65,45,48,48,45,66,81],
  [65,65,45,48,48,45,66,82], [65,65,45,48,48,45,66,83], [65,65,45,48,48,45,66,84], [65,65,45,48,48,45,65,66],
  [65,65,45,48,48,45,65,67], [65,65,45,48,48,45,65,68], [65,65,45,48,48,45,65,69], [65,65,45,48,48,45,65,70],
  [65,65,45,48,48,45,65,71], [65,65,45,48,48,45,65,72], [65,65,45,48,48,45,65,73], [65,65,45,48,48,45,65,74],
  [65,65,45,48,48,45,65,75], [65,65,45,48,48,45,65,76], [65,65,45,48,48,45,65,77], [65,65,45,48,48,45,65,78],
  [65,65,45,48,48,45,65,79], [65,65,45,48,48,45,65,80], [65,65,45,48,48,45,65,81], [65,65,45,48,48,45,65,82],
  [65,65,45,48,48,45,65,83], [65,65,45,48,48,45,65,84], [65,65,45,48,48,45,65,85], [65,65,45,48,48,45,65,86],
  [65,65,45,48,48,45,65,87], [65,65,45,48,48,45,65,88], [65,65,45,48,48,45,65,89], [65,65,45,48,48,45,65,90],
  [65,65,45,48,48,45,67,78], [65,65,45,48,48,45,67,79], [65,65,45,48,48,45,67,80], [65,65,45,48,48,45,67,81],
  [65,65,45,48,48,45,67,82], [65,65,45,48,48,45,67,83], [65,65,45,48,48,45,67,84], [65,65,45,48,48,45,66,65]]

/-- An open record for `plate` distinguished by its entry minute. -/
def openRec (plate : List Nat) (i : Nat) : Log :=
  { plate := plate, parkName := [],
    entryTimestamp := ⟨0, 0, 0, 0, (i : Int)⟩,
    exitTimestamp := INITIAL_TIMESTAMP }

/-- The 92-insert sequence refuting the load-factor bound: 39 records
on `plateAA`'s bucket (1 head insert + 38 appends, none reaching the
0.75 threshold), then 52 head inserts filling every other bucket (the
head path never checks the load factor), then one final append. -/
def loadRunRecs : List Log :=
  (List.range 92).map (fun i =>
    openRec (if i < 39 then plateAA
             else if i < 91 then headPlates.getD (i - 39) []
             else plateAA) i)

/-- 40 records on one bucket: the 40th insert is an append that drives
the load factor over 0.75 and triggers the growth to 107 buckets. -/
def growRunRecs : List Log := (List.range 40).map (fun i => openRec plateAA i)

/-! ### Records for the sorting analyses -/

def billTs (m : Int) : Timestamp := ⟨1, 1, 2025, 8, m⟩

/-- A record in park "A" (byte 65) with the later exit 08:30. -/
def logParkA : Log :=
  { plate := plateAA, parkName := [65],
    entryTimestamp := billTs 0, exitTimestamp := billTs 30 }

/-- A record in park "B" (byte 66) with the earlier exit 08:10. -/
def logParkB : Log :=
  { plate := plateAA, parkName := [66],
    entryTimestamp := billTs 0, exitTimestamp := billTs 10 }

/-- Two distinct records whose sort keys tie: same park (byte 97), same
exit timestamp, different entry timestamps. -/
def dupA : Log :=
  { plate := plateAA, parkName := [97],
    entryTimestamp := billTs 1, exitTimestamp := billTs 30 }

def dupB : Log :=
  { plate := plateAA, parkName := [97],
    entryTimestamp := billTs 2, exitTimestamp := billTs 30 }

/-- Open records (unset exit) on the same plate, distinct park names. -/
def openA : Log := newLog plateAA [97]

def openB : Log := newLog plateAA [98]

/-! ### The claims -/

/-- C1: the claim (and the doc comment of `merge` in `log.c`) says a
non-`'e'` sort key orders primarily by exit timestamp and secondarily
by park name.  The implemented branch condition
`parkNameCmp < 0 || (parkNameCmp == 0 && timestampComparison)` keeps
the park name primary for every key, contradicting the function's own
documentation: on the chain `[logParkA, logParkB]` the code returns
park-name order `[logParkA, logParkB]` even though `logParkB`'s exit
(08:10) strictly precedes `logParkA`'s exit (08:30), so the claimed
exit-primary order would require `[logParkB, logParkA]`. -/
theorem C1_exit_sort_uses_park_name_first :
    mergeSort 's' [logParkA, logParkB] = [logParkA, logParkB] ∧
    compareTimestamps logParkB.exitTimestamp logParkA.exitTimestamp = -1 ∧
    logParkA.parkName ≠ logParkB.parkName := by decide

/-- C6 (counterexample): `mergeSort` with a non-`'e'` key is not
idempotent.  `[dupA, dupB]` has tied keys (same park, same exit), so it
is sorted under any reading of the order; one application yields
`[dupB, dupA]` (the merge prefers `list2` on ties) and a second
application flips it back, so sorting the already-sorted output does
not return an identical chain. -/
theorem C6_counterexample :
    mergeSort 's' [dupA, dupB] = [dupB, dupA] ∧
    mergeSort 's' (mergeSort 's' [dupA, dupB]) ≠ mergeSort 's' [dupA, dupB] ∧
    dupA ≠ dupB := by decide

/-- C6 (amended): for a non-`'e'` key, a chain that is strictly sorted
under the comparison the code implements — park name ascending
(byte-wise), then exit timestamp ascending, with no record pair tying
on both — is returned unchanged by `mergeSort`.  (As stated the claim
fails: ties are flipped on every pass, and the implemented primary key
is the park name, not the exit timestamp.) -/
theorem C6_amended_sorted_fixpoint (sortBy : Char) (_hc : sortBy ≠ 'e')
    (l : List Log)
    (hpair : l.Pairwise (fun a b => condTake sortBy a b = true)) :
    mergeSort sortBy l = l :=
  mergeSortF_fixpoint sortBy l.length l (by omega) hpair

theorem C6_amended_witness :
    mergeSort 's' [logParkA, logParkB] = [logParkA, logParkB] :=
  C6_amended_sorted_fixpoint 's' (by decide) [logParkA, logParkB] (by decide)

/-- C7: for every `n ≤ 10000`, `nearestPrime n` is a prime `≥ n`;
`nearestPrime 1 = 2` and `nearestPrime 53 = 53`; `n ≤ 1` maps to 2, and
an even `n ≥ 2` is first forced odd (the probe then walks upward
by 2). -/
theorem C7_nearestPrime_bounded_spec :
    (∀ n : Nat, n ≤ 10000 → Nat.Prime (nearestPrime n) ∧ n ≤ nearestPrime n) ∧
    nearestPrime 1 = 2 ∧ nearestPrime 53 = 53 ∧
    (∀ n : Nat, n ≤ 1 → nearestPrime n = 2) ∧
    (∀ n : Nat, 2 ≤ n → n % 2 = 0 → nearestPrime n = nearestPrime (n + 1)) := by
  refine ⟨fun n hn => nearestPrime_spec n (by omega), by decide, by decide, ?_, ?_⟩
  · intro n hn
    rw [nearestPrime, if_pos hn]
  · intro n h2 heven
    simp only [nearestPrime, if_neg (show ¬n ≤ 1 by omega),
      if_neg (show ¬n + 1 ≤ 1 by omega), if_pos heven,
      if_neg (show ¬(n + 1) % 2 = 0 by omega)]

theorem C7_witness :
    (Nat.Prime (nearestPrime 10000) ∧ 10000 ≤ nearestPrime 10000) ∧
    nearestPrime 0 = 2 ∧ nearestPrime 2 = nearestPrime 3 :=
  ⟨C7_nearestPrime_bounded_spec.1 10000 (by decide),
   C7_nearestPrime_bounded_spec.2.2.2.1 0 (by decide),
   C7_nearestPrime_bounded_spec.2.2.2.2 2 (by decide) (by decide)⟩

/-! ### The growth probe at the top of the 32-bit range (C8)

Near `2^32` the `unsigned int` wrap takes over: for
`num = 4294967291 = 2^32 - 5` (a genuine prime) every probe square is
`≡ 1 (mod 8)` and therefore at most `2^32 - 7 ≤ num`, so the wrapped
guard `i*i % 2^32 ≤ num` never fails and the loop marches on to
`i = num` itself, reporting the prime as composite.  The probe of
`nearestPrime` then rejects `4294967293 = 9241 · 464773` and
`4294967295 = 3 · 1431655765`, wraps `4294967295 + 2` to `1`, and
returns 3. -/

/-- The wrapped trial loop returns `false` whenever some probe
`i + 6*k`, reached without the step wrapping, divides `num` (or has its
companion `i + 6*k + 2` divide `num`), provided the wrapped guard holds
at every probe up to `k`. -/
theorem isPrimeLoop_false_of_div {num : Nat} :
    ∀ fuel i k, k < fuel → i + 6 * k < 4294967296 →
      (∀ t, t ≤ k → (i + 6 * t) * (i + 6 * t) % 4294967296 ≤ num) →
      (num % (i + 6 * k) = 0 ∨ num % (i + 6 * k + 2) = 0) →
      isPrimeLoop num fuel i = false := by
  intro fuel
  induction fuel with
  | zero => intro i k hk; omega
  | succ fuel ih =>
      intro i k hk hwrap hguard hdiv
      rw [isPrimeLoop]
      rw [if_pos (by simpa using hguard 0 (by omega))]
      by_cases hdvd : num % i = 0 || num % (i + 2) = 0
      · rw [if_pos hdvd]
      · rw [if_neg hdvd]
        have hk0 : k ≠ 0 := by
          intro h0; subst h0
          simp only [Nat.mul_zero, Nat.add_zero] at hdiv
          simp only [Bool.or_eq_true, decide_eq_true_eq, not_or] at hdvd
          rcases hdiv with h | h
          · exact hdvd.1 h
          · exact hdvd.2 h
        have hstep : (i + 6) % 4294967296 = i + 6 :=
          Nat.mod_eq_of_lt (by omega)
        rw [hstep]
        refine ih (i + 6) (k - 1) (by omega) (by omega) ?_ ?_
        · intro t ht
          have hg := hguard (t + 1) (by omega)
          have harg : i + 6 + 6 * t = i + 6 * (t + 1) := by ring
          rw [harg]
          exact hg
        · have harg : i + 6 + 6 * (k - 1) = i + 6 * k := by omega
          rw [harg]
          exact hdiv

/-- The C trial division misreports the prime `2^32 - 5`: the wrapped
guard never fails (odd squares are `≡ 1 (mod 8)`, the four residues
above `num` are not), so the loop reaches probe `i = num` and finds
`num % num = 0`. -/
theorem isPrime_4294967291_false : isPrime 4294967291 = false := by
  rw [isPrime]
  rw [if_neg (by norm_num), if_neg (by norm_num), if_neg (by norm_num)]
  refine isPrimeLoop_false_of_div 4294967291 5 715827881 (by norm_num)
    (by norm_num) ?_ ?_
  · intro t ht
    have hjodd : (5 + 6 * t) % 2 = 1 := by omega
    have hmod8 : (5 + 6 * t) * (5 + 6 * t) % 4294967296 % 8 =
        (5 + 6 * t) * (5 + 6 * t) % 8 :=
      Nat.mod_mod_of_dvd _ (by norm_num)
    have hj8 : (5 + 6 * t) % 8 = 1 ∨ (5 + 6 * t) % 8 = 3 ∨
        (5 + 6 * t) % 8 = 5 ∨ (5 + 6 * t) % 8 = 7 := by omega
    have hsq8 : (5 + 6 * t) * (5 + 6 * t) % 8 = 1 := by
      rw [Nat.mul_mod]
      rcases hj8 with h | h | h | h <;> rw [h]
    have hlt : (5 + 6 * t) * (5 + 6 * t) % 4294967296 < 4294967296 :=
      Nat.mod_lt _ (by norm_num)
    omega
  · left
    norm_num

/-- The next odd value, `4294967293 = 9241 · 464773`, is genuinely
composite and the loop duly rejects it (probe `i = 9239`, companion
`9241`), entirely below the wrap. -/
theorem isPrime_4294967293_false : isPrime 4294967293 = false := by
  rw [isPrime]
  rw [if_neg (by norm_num), if_neg (by norm_num), if_neg (by norm_num)]
  refine isPrimeLoop_false_of_div 4294967293 5 1539 (by norm_num)
    (by norm_num) ?_ ?_
  · intro t ht
    have hj : 5 + 6 * t ≤ 9239 := by omega
    have hsq : (5 + 6 * t) * (5 + 6 * t) ≤ 9239 * 9239 :=
      Nat.mul_le_mul hj hj
    have hid : (5 + 6 * t) * (5 + 6 * t) % 4294967296 =
        (5 + 6 * t) * (5 + 6 * t) :=
      Nat.mod_eq_of_lt (by omega)
    omega
  · right
    norm_num

/-- One probe step of the scan when the current value is rejected. -/
theorem primeScan_succ_of_false {n : Nat} (fuel : Nat)
    (h : isPrime n = false) :
    primeScan (fuel + 1) n = primeScan fuel ((n + 2) % 4294967296) := by
  simp [primeScan, h]

/-- C8 (counterexample): at the top of the machine-word range the claim
fails on the code.  For the bucket count `s = 2147483645` we have
`2s + 1 = 4294967291`, a prime the wrapped trial division misreports as
composite; the probe then walks `4294967293`, `4294967295`, wraps to
`1`, and stops at `3` — not a prime strictly greater than `s`, even
though `2s + 1` is within the machine-word range. -/
theorem C8_counterexample :
    nearestPrime (2 * 2147483645 + 1) = 3 ∧
    ¬2147483645 < nearestPrime (2 * 2147483645 + 1) ∧
    1 ≤ 2147483645 ∧ 2 * 2147483645 + 1 < 4294967296 := by
  have hval : nearestPrime (2 * 2147483645 + 1) = 3 := by
    rw [show (2 * 2147483645 + 1 : Nat) = 4294967291 by norm_num]
    rw [nearestPrime, if_neg (by norm_num)]
    show primeScan ((if (4294967291 : Nat) % 2 = 0 then 4294967291 + 1
      else 4294967291) + 2) (if (4294967291 : Nat) % 2 = 0 then
      4294967291 + 1 else 4294967291) = 3
    rw [if_neg (by norm_num)]
    rw [show (4294967291 + 2 : Nat) = 4294967292 + 1 by norm_num]
    rw [primeScan_succ_of_false _ isPrime_4294967291_false]
    rw [show ((4294967291 + 2) % 4294967296 : Nat) = 4294967293 by norm_num]
    rw [show (4294967292 : Nat) = 4294967291 + 1 by norm_num]
    rw [primeScan_succ_of_false _ isPrime_4294967293_false]
    rw [show ((4294967293 + 2) % 4294967296 : Nat) = 4294967295 by norm_num]
    rw [show (4294967291 : Nat) = 4294967290 + 1 by norm_num]
    rw [primeScan_succ_of_false _ (by decide : isPrime 4294967295 = false)]
    rw [show ((4294967295 + 2) % 4294967296 : Nat) = 1 by norm_num]
    rw [show (4294967290 : Nat) = 4294967289 + 1 by norm_num]
    rw [primeScan_succ_of_false _ (by decide : isPrime 1 = false)]
    rw [show ((1 + 2) % 4294967296 : Nat) = 3 by norm_num]
    rw [show (4294967289 : Nat) = 4294967288 + 1 by norm_num]
    rw [primeScan]
    rw [if_pos (by decide : isPrime 3 = true)]
  exact ⟨hval, by rw [hval]; norm_num, by norm_num, by norm_num⟩

/-- C8 (amended): for every bucket count `s` with `1 ≤ s ≤ 10^9` — any
table this program can reach, growth starting from 53 buckets and at
most doubling per step — the probe `nearestPrime (2*s + 1)` halts
within its modelled counter and yields a prime strictly greater than
`s`.  (As stated over the whole machine-word range the claim fails: the
`unsigned int` wrap makes `s = 2147483645` yield 3.) -/
theorem C8_amended_growth_bounded (s : Nat) (_h1 : 1 ≤ s)
    (h2 : s ≤ 1000000000) :
    Nat.Prime (nearestPrime (2 * s + 1)) ∧ s < nearestPrime (2 * s + 1) := by
  have h := nearestPrime_spec (2 * s + 1) (by omega)
  exact ⟨h.1, by omega⟩

theorem C8_amended_witness :
    Nat.Prime (nearestPrime (2 * 53 + 1)) ∧ 53 < nearestPrime (2 * 53 + 1) :=
  C8_amended_growth_bounded 53 (by decide) (by decide)

/-- C9: `getLogAtIndex` is total — it returns the NULL chain on a NULL
table handle or an out-of-range index, and the stored chain head
otherwise; no input can make it crash (the embedding is a total
function). -/
theorem C9_getLogAtIndex_total (ht : Hashtable) (index : Nat) :
    getLogAtIndex none index = [] ∧
    (index ≥ ht.size → getLogAtIndex (some ht) index = []) ∧
    (index < ht.size → getLogAtIndex (some ht) index = ht.logs.getD index []) := by
  refine ⟨rfl, ?_, ?_⟩
  · intro h
    simp only [getLogAtIndex, if_pos h]
  · intro h
    simp only [getLogAtIndex, if_neg (show ¬index ≥ ht.size by omega)]

theorem C9_witness :
    getLogAtIndex none 7 = [] ∧
    getLogAtIndex (some newHashtable) 60 = [] ∧
    getLogAtIndex (some newHashtable) 0 = newHashtable.logs.getD 0 [] :=
  ⟨(C9_getLogAtIndex_total newHashtable 7).1,
   (C9_getLogAtIndex_total newHashtable 60).2.1 (by decide),
   (C9_getLogAtIndex_total newHashtable 0).2.2 (by decide)⟩

/-- C2 (counterexample): the load-factor bound fails after an append
that triggers growth.  In `loadRunRecs`, 38 appends stay below the
threshold, 52 head inserts (which never check the load factor) drive
the count to 91, and the final append makes it 92 > 0.75·53; the
resize to 107 buckets is not enough: 92/107 ≈ 0.86 > 0.75 even though
the most recent insert completed via the append path. -/
theorem C2_counterexample :
    appendPath (runInserts (loadRunRecs.take 91)) (openRec plateAA 91) = true ∧
    runInserts loadRunRecs =
      addLogToTable (runInserts (loadRunRecs.take 91)) (openRec plateAA 91) ∧
    4 * (runInserts loadRunRecs).numElements >
      3 * (runInserts loadRunRecs).size ∧
    (runInserts loadRunRecs).numElements = 92 ∧
    (runInserts loadRunRecs).size = 107 := by
  set_option maxRecDepth 100000 in decide

/-- C2 (amended): the ratio bound `element count / bucket count ≤ 0.75`
(that is, `4·n ≤ 3·s`) does hold immediately after every append-path
insert that does not trigger growth; a growth-triggering append can
leave the ratio above 0.75 (e.g. 92/107). -/
theorem C2_amended_load_factor (ht : Hashtable) (log : Log)
    (happend : appendPath ht log = true)
    (hnogrow : ¬4 * (ht.numElements + 1) > 3 * ht.size) :
    4 * (addLogToTable ht log).numElements ≤
      3 * (addLogToTable ht log).size := by
  have hb : (ht.logs.getD (plateHash log.plate (getSize ht)) []).isEmpty = false := by
    rw [appendPath] at happend
    simp only [Bool.not_eq_true'] at happend
    exact happend
  simp only [addLogToTable, hb, Bool.false_eq_true, if_false,
    if_neg (show ¬4 * (ht.numElements + 1) > 3 * getSize ht from hnogrow)]
  omega

theorem C2_amended_witness :
    4 * (addLogToTable (runInserts [openRec plateAA 0]) (openRec plateAA 1)).numElements ≤
      3 * (addLogToTable (runInserts [openRec plateAA 0]) (openRec plateAA 1)).size :=
  C2_amended_load_factor (runInserts [openRec plateAA 0]) (openRec plateAA 1)
    (by decide) (by decide)

/-- C3 (counterexample): the rehash of `resizeHashtable` head-inserts
along each source chain, so two records of the same source chain that
land in the same destination bucket come out in the opposite order: the
chain `[openRec plateAA 0, openRec plateAA 1]` of bucket 19 (of 53)
becomes `[openRec plateAA 1, openRec plateAA 0]` in bucket 30
(of 107). -/
theorem C3_counterexample :
    (runInserts [openRec plateAA 0, openRec plateAA 1]).logs.getD
        (plateHash plateAA 53) [] =
      [openRec plateAA 0, openRec plateAA 1] ∧
    (resizeHashtable (runInserts [openRec plateAA 0, openRec plateAA 1])).size
      = 107 ∧
    (resizeHashtable (runInserts [openRec plateAA 0, openRec plateAA 1])).logs.getD
        (plateHash plateAA 107) [] =
      [openRec plateAA 1, openRec plateAA 0] ∧
    openRec plateAA 0 ≠ openRec plateAA 1 := by decide

/-- C3 (amended): after `resizeHashtable`, destination bucket `j` holds
exactly the stored records hashing to `j` under the new size, in
reverse traversal order (old buckets in ascending index order, each
chain front to back): same-source-chain records that collide in the
destination appear in reversed — not preserved — relative order. -/
theorem C3_amended_resize_reverses (ht : Hashtable) (j : Nat) :
    (resizeHashtable ht).logs.getD j [] =
      ((allRecords ht).filter (fun r =>
        plateHash r.plate (nearestPrime (ht.size * 2 + 1)) == j)).reverse :=
  resize_logs_getD ht j

/-- C4 (counterexample): with two open records on the same plate in the
table (which `addLogToTable` happily stores), the scan returns the
chain's first match — the EARLIEST-inserted open record `openA`, not
the most recently inserted one (`openB`). -/
theorem C4_counterexample :
    getPlateLastLogWithoutExit (runInserts [openA, openB]) plateAA = some openA ∧
    isOpenFor plateAA openB = true ∧
    openA ≠ openB := by decide

/-- C4 (amended): on a well-formed table, `getPlateLastLogWithoutExit`
returns the first record of the plate's bucket chain whose plate
matches and whose exit is unset, and `none` exactly when no stored
record is open for the plate; when at most one open record per plate is
present (the discipline the callers maintain), the returned record is
that unique open record. -/
theorem C4_amended_find_open (ht : Hashtable) (p : List Nat) (hwf : WF ht)
    (huniq : (allRecords ht).countP (isOpenFor p) ≤ 1) :
    (∀ r : Log, getPlateLastLogWithoutExit ht p = some r ↔
      r ∈ allRecords ht ∧ isOpenFor p r = true) ∧
    (getPlateLastLogWithoutExit ht p = none ↔
      ∀ r ∈ allRecords ht, isOpenFor p r = false) := by
  obtain ⟨hlen, hpos, hinv⟩ := hwf
  have hidxlt : plateHash p (getSize ht) < ht.logs.length := by
    rw [hlen]; exact plateHash_lt _ hpos
  have hchain : getLogAtIndex (some ht) (plateHash p (getSize ht)) =
      ht.logs.getD (plateHash p (getSize ht)) [] := by
    simp only [getLogAtIndex,
      if_neg (show ¬plateHash p (getSize ht) ≥ ht.size by
        rw [hlen] at hidxlt; omega)]
  have hmain : ∀ r : Log, getPlateLastLogWithoutExit ht p = some r ↔
      r ∈ allRecords ht ∧ isOpenFor p r = true := by
    intro r
    constructor
    · intro hfind
      rw [getPlateLastLogWithoutExit, hchain] at hfind
      exact ⟨mem_bucket_allRecords ht _ hidxlt r
        (List.mem_of_find?_eq_some hfind), List.find?_some hfind⟩
    · rintro ⟨hrall, hrp⟩
      obtain ⟨chain, hchain_mem, hrchain⟩ := List.mem_flatten.mp hrall
      obtain ⟨i, hi, hchain_eq⟩ := List.mem_iff_getElem.mp hchain_mem
      have hio : r ∈ ht.logs.getD i [] := by
        rw [List.getD_eq_getElem (l := ht.logs) (d := []) hi, hchain_eq]
        exact hrchain
      have hhash := hinv i hi r hio
      have hplate : r.plate = p := ((isOpenFor_iff p r).mp hrp).1
      have hieq : i = plateHash p (getSize ht) := by
        rw [← hhash, hplate]; rfl
      rw [hieq] at hio
      have hsome : ((ht.logs.getD (plateHash p (getSize ht)) []).find?
          (isOpenFor p)).isSome := by
        rw [List.find?_isSome]
        exact ⟨r, hio, hrp⟩
      obtain ⟨r2, hr2⟩ := Option.isSome_iff_exists.mp hsome
      have hr2mem := List.mem_of_find?_eq_some hr2
      have hr2p := List.find?_some hr2
      have hreq : r = r2 := countP_le_one_eq huniq hrall
        (mem_bucket_allRecords ht _ hidxlt r2 hr2mem) hrp hr2p
      rw [getPlateLastLogWithoutExit, hchain, hr2, hreq]
  refine ⟨hmain, ?_, ?_⟩
  · intro hnone r hr
    by_contra hrp
    have := (hmain r).mpr ⟨hr, by
      cases h : isOpenFor p r
      · exact absurd h hrp
      · rfl⟩
    rw [hnone] at this
    cases this
  · intro hall
    cases hfind : getPlateLastLogWithoutExit ht p with
    | none => rfl
    | some r =>
        have := (hmain r).mp hfind
        have hfalse := hall r this.1
        rw [this.2] at hfalse
        cases hfalse

theorem C4_amended_witness :
    getPlateLastLogWithoutExit (runInserts [openA]) plateAA = some openA ↔
      openA ∈ allRecords (runInserts [openA]) ∧ isOpenFor plateAA openA = true :=
  (C4_amended_find_open (runInserts [openA]) plateAA (by decide) (by decide)).1 openA

/-- C5: growth preserves the stored records exactly (a permutation — no
record dropped or duplicated), the resized table satisfies the hash
invariant, and the invariant "every record reachable from bucket `i`
hashes to `i` under the current bucket count" holds after every insert
and after every insert sequence from a fresh table. -/
theorem C5_grow_bijection_and_hash_invariant :
    (∀ ht : Hashtable, (allRecords (resizeHashtable ht)).Perm (allRecords ht)) ∧
    (∀ ht : Hashtable, WF (resizeHashtable ht)) ∧
    (∀ (ht : Hashtable) (log : Log), WF ht → WF (addLogToTable ht log)) ∧
    (∀ logs : List Log, WF (runInserts logs)) :=
  ⟨resize_allRecords_perm, WF_resize, WF_addLogToTable, WF_runInserts⟩

theorem C5_witness :
    WF (addLogToTable newHashtable openA) ∧
    (allRecords (resizeHashtable newHashtable)).Perm (allRecords newHashtable) :=
  ⟨C5_grow_bijection_and_hash_invariant.2.2.1 newHashtable openA (by decide),
   C5_grow_bijection_and_hash_invariant.1 newHashtable⟩

/-- C10 (counterexample): insertion placement as claimed fails when the
append triggers growth.  The 40th insert of `growRunRecs` goes through
the append path, but the triggered rehash head-inserts the whole
chain, so afterwards the new record sits at the HEAD of its bucket of
the 107-bucket table while the chain's end holds the first-inserted
record — the inserted record is reachable but not at the end of its
chain. -/
theorem C10_counterexample :
    appendPath (runInserts (growRunRecs.take 39)) (openRec plateAA 39) = true ∧
    runInserts growRunRecs =
      addLogToTable (runInserts (growRunRecs.take 39)) (openRec plateAA 39) ∧
    (runInserts growRunRecs).logs.getD (plateHash plateAA 107) [] =
      ((List.range 40).map (fun i => openRec plateAA i)).reverse ∧
    ((runInserts growRunRecs).logs.getD (plateHash plateAA 107) []).getLast? =
      some (openRec plateAA 0) ∧
    openRec plateAA 0 ≠ openRec plateAA 39 := by
  set_option maxRecDepth 100000 in decide

/-- C10 (amended): `newLog` creates records with both timestamps unset
(open), and `addLogToTable` is unconditional — no per-plate uniqueness
check: the inserted record is always reachable afterwards, even when an
open record with the same plate is already stored; it becomes the sole
bucket head if its bucket was empty and is appended at the end of the
chain otherwise, except that a growth-triggering append rehashes the
table, after which the record is still stored but not necessarily last
in its new chain. -/
theorem C10_amended_insert_unconditional (ht : Hashtable) (log : Log)
    (hwf : WF ht) :
    ((newLog log.plate log.parkName).entryTimestamp = INITIAL_TIMESTAMP ∧
     (newLog log.plate log.parkName).exitTimestamp = INITIAL_TIMESTAMP) ∧
    log ∈ allRecords (addLogToTable ht log) ∧
    (appendPath ht log = false →
      (addLogToTable ht log).logs.getD (plateHash log.plate (getSize ht)) []
        = [log]) ∧
    (appendPath ht log = true → ¬4 * (ht.numElements + 1) > 3 * ht.size →
      (addLogToTable ht log).logs.getD (plateHash log.plate (getSize ht)) []
        = ht.logs.getD (plateHash log.plate (getSize ht)) [] ++ [log]) := by
  obtain ⟨hlen, hpos, hinv⟩ := hwf
  have hidxlt : plateHash log.plate (getSize ht) < ht.logs.length := by
    rw [hlen]; exact plateHash_lt _ hpos
  refine ⟨⟨rfl, rfl⟩, ?_, ?_, ?_⟩
  · by_cases hb : (ht.logs.getD (plateHash log.plate (getSize ht)) []).isEmpty
    · simp only [addLogToTable, hb, if_true]
      refine mem_bucket_allRecords _ (plateHash log.plate (getSize ht))
        (by simpa [List.length_set] using hidxlt) log ?_
      show log ∈ (ht.logs.set (plateHash log.plate (getSize ht)) [log]).getD
        (plateHash log.plate (getSize ht)) []
      rw [getD_set_self _ hidxlt]
      exact List.mem_singleton.mpr rfl
    · simp only [addLogToTable, hb, Bool.false_eq_true, if_false]
      by_cases hgrow : 4 * (ht.numElements + 1) > 3 * getSize ht
      · rw [if_pos hgrow]
        rw [(resize_allRecords_perm _).mem_iff]
        refine mem_bucket_allRecords _ (plateHash log.plate (getSize ht))
          (by simpa [List.length_set] using hidxlt) log ?_
        show log ∈ (ht.logs.set (plateHash log.plate (getSize ht))
          (ht.logs.getD (plateHash log.plate (getSize ht)) [] ++ [log])).getD
          (plateHash log.plate (getSize ht)) []
        rw [getD_set_self _ hidxlt]
        exact List.mem_append_right _ (List.mem_singleton.mpr rfl)
      · rw [if_neg hgrow]
        refine mem_bucket_allRecords _ (plateHash log.plate (getSize ht))
          (by simpa [List.length_set] using hidxlt) log ?_
        show log ∈ (ht.logs.set (plateHash log.plate (getSize ht))
          (ht.logs.getD (plateHash log.plate (getSize ht)) [] ++ [log])).getD
          (plateHash log.plate (getSize ht)) []
        rw [getD_set_self _ hidxlt]
        exact List.mem_append_right _ (List.mem_singleton.mpr rfl)
  · intro hempty
    have hb : (ht.logs.getD (plateHash log.plate (getSize ht)) []).isEmpty = true := by
      rw [appendPath] at hempty
      simp only [Bool.not_eq_false'] at hempty
      exact hempty
    simp only [addLogToTable, hb, if_true]
    exact getD_set_self _ hidxlt
  · intro happend hnogrow
    have hb : (ht.logs.getD (plateHash log.plate (getSize ht)) []).isEmpty = false := by
      rw [appendPath] at happend
      simp only [Bool.not_eq_true'] at happend
      exact happend
    simp only [addLogToTable, hb, Bool.false_eq_true, if_false,
      if_neg (show ¬4 * (ht.numElements + 1) > 3 * getSize ht from hnogrow)]
    exact getD_set_self _ hidxlt

theorem C10_amended_witness :
    openA ∈ allRecords (addLogToTable (runInserts [openB]) openA) ∧
    (appendPath (runInserts [openB]) openA = true →
      ¬4 * ((runInserts [openB]).numElements + 1) > 3 * (runInserts [openB]).size →
      (addLogToTable (runInserts [openB]) openA).logs.getD
          (plateHash openA.plate (getSize (runInserts [openB]))) []
        = (runInserts [openB]).logs.getD
            (plateHash openA.plate (getSize (runInserts [openB]))) [] ++ [openA]) :=
  ⟨(C10_amended_insert_unconditional (runInserts [openB]) openA (by decide)).2.1,
   (C10_amended_insert_unconditional (runInserts [openB]) openA (by decide)).2.2.2⟩

end ParkingVerif
